import Mathlib

/-!
Verification of the two algorithmic modules of the repository:
`strings/knuth_morris_pratt.py` (substring search with a precomputed
failure table) and `strings/min_cost_string_conversion.py` (weighted
edit-distance tables with operation-sequence reconstruction).

Python strings are modelled as `List Char`; Python `int` is `Int`
(`Nat` for indices); a function that can raise an uncaught Python
exception is modelled as returning `Except PyError`.
-/

set_option linter.unusedVariables false

/-- Error value standing for an uncaught Python `IndexError`
(the spec's `OutOfBounds` / `InvalidInput` error surface). -/
inductive PyError where
  | indexError
deriving DecidableEq, Repr

/-! ## min_cost_string_conversion.py -/

/-- Value of cell `(i, j)` of the pair of tables built by
`compute_transform_tables` (cost, operation tag): direct transcription
of the initialisation loops (lines 47-53) and the interior recurrence
(lines 55-70) of the Python source.  The interior cell starts from the
diagonal candidate (`copy_cost` when `source_seq[i-1] == destination_seq[j-1]`,
else `replace_cost`), then the vertical delete candidate overwrites on
strict `<`, then the horizontal insert candidate overwrites on strict `<`.
Operation tags are the strings `"0"`, `"C%c"`, `"R%c%c"`, `"D%c"`, `"I%c"`
as lists of characters.  `getD` defaults are never reached for the index
ranges the tables materialise (`i ≤ len src`, `j ≤ len dst`). -/
def transformCell (src dst : List Char) (cc rc dc ic : Int) : Nat → Nat → Int × List Char
  | 0, 0 => (0, ['0'])
  | i+1, 0 => (((i : Int) + 1) * dc, ['D', src.getD i ' '])
  | 0, j+1 => (((j : Int) + 1) * ic, ['I', dst.getD j ' '])
  | i+1, j+1 =>
    let diag := (transformCell src dst cc rc dc ic i j).1
    let vert := (transformCell src dst cc rc dc ic i (j+1)).1
    let horiz := (transformCell src dst cc rc dc ic (i+1) j).1
    let c0 : Int := if src.getD i ' ' = dst.getD j ' ' then diag + cc else diag + rc
    let o0 : List Char :=
      if src.getD i ' ' = dst.getD j ' ' then ['C', src.getD i ' ']
      else ['R', src.getD i ' ', dst.getD j ' ']
    let c1 : Int := if vert + dc < c0 then vert + dc else c0
    let o1 : List Char := if vert + dc < c0 then ['D', src.getD i ' '] else o0
    let c2 : Int := if horiz + ic < c1 then horiz + ic else c1
    let o2 : List Char := if horiz + ic < c1 then ['I', dst.getD j ' '] else o1
    (c2, o2)
termination_by i j => (i, j)

/-- The pair `(costs, ops)` returned by `compute_transform_tables`:
matrices of size `(len src + 1) × (len dst + 1)` whose entries are the
cell values of `transformCell`. -/
def compute_transform_tables (src dst : List Char) (cc rc dc ic : Int) :
    List (List Int) × List (List (List Char)) :=
  ((List.range (src.length + 1)).map fun i =>
      (List.range (dst.length + 1)).map fun j => (transformCell src dst cc rc dc ic i j).1,
   (List.range (src.length + 1)).map fun i =>
      (List.range (dst.length + 1)).map fun j => (transformCell src dst cc rc dc ic i j).2)

/-- Backward traversal `assemble_transformation(ops, i, j)` of the Python
source.  Coordinates are `Int` as in Python; an access at a coordinate
outside `[0, length)` is modelled as an immediate `IndexError`.  (Python
would first wrap an index in `[-length, 0)` to the end of the list, but
since the traversal only ever decreases its coordinates it can never get
back to the base case `(0,0)` after going negative, and within
finitely many further steps falls off the negative end and raises
`IndexError` — observably the same outcome.)  An empty tag cell also
raises `IndexError` (`cell[0]` on an empty string). -/
def assemble_transformation (ops : List (List (List Char))) (i j : Int) :
    Except PyError (List (List Char)) :=
  if h0 : i = 0 ∧ j = 0 then .ok []
  else if hi : 0 ≤ i ∧ i.toNat < ops.length then
    let row := ops.get ⟨i.toNat, hi.2⟩
    if hj : 0 ≤ j ∧ j.toNat < row.length then
      let cell := row.get ⟨j.toNat, hj.2⟩
      match cell.head? with
      | none => .error .indexError
      | some c =>
        if c = 'C' ∨ c = 'R' then
          (assemble_transformation ops (i-1) (j-1)).map (fun s => s ++ [cell])
        else if c = 'D' then
          (assemble_transformation ops (i-1) j).map (fun s => s ++ [cell])
        else
          (assemble_transformation ops i (j-1)).map (fun s => s ++ [cell])
    else .error .indexError
  else .error .indexError
termination_by (i + j).toNat
decreasing_by all_goals (simp_wf; omega)

/-- Entry `(i, j)` of a matrix encoded as a list of rows (`M[i][j]`,
`none` when out of range). -/
def matEntry {α : Type} (M : List (List α)) (i j : Nat) : Option α :=
  (M.get? i).bind fun r => r.get? j

theorem matEntry_tables_fst (src dst : List Char) (cc rc dc ic : Int)
    (i j : Nat) (hi : i ≤ src.length) (hj : j ≤ dst.length) :
    matEntry (compute_transform_tables src dst cc rc dc ic).1 i j =
      some (transformCell src dst cc rc dc ic i j).1 := by
  simp [matEntry, compute_transform_tables, List.get?_eq_getElem?,
    List.getElem?_map, List.getElem?_range, Nat.lt_succ_of_le hi, Nat.lt_succ_of_le hj]

theorem matEntry_tables_snd (src dst : List Char) (cc rc dc ic : Int)
    (i j : Nat) (hi : i ≤ src.length) (hj : j ≤ dst.length) :
    matEntry (compute_transform_tables src dst cc rc dc ic).2 i j =
      some (transformCell src dst cc rc dc ic i j).2 := by
  simp [matEntry, compute_transform_tables, List.get?_eq_getElem?,
    List.getElem?_map, List.getElem?_range, Nat.lt_succ_of_le hi, Nat.lt_succ_of_le hj]

/-- Interior-cell case analysis: cost and operation tag of
`transformCell (i+1) (j+1)` come from one of the three DP transitions,
consistently with one another. -/
theorem transformCell_succ_succ (src dst : List Char) (cc rc dc ic : Int) (i j : Nat) :
    ((transformCell src dst cc rc dc ic (i+1) (j+1)).2 = ['I', dst.getD j ' '] ∧
      (transformCell src dst cc rc dc ic (i+1) (j+1)).1 =
        (transformCell src dst cc rc dc ic (i+1) j).1 + ic) ∨
    ((transformCell src dst cc rc dc ic (i+1) (j+1)).2 = ['D', src.getD i ' '] ∧
      (transformCell src dst cc rc dc ic (i+1) (j+1)).1 =
        (transformCell src dst cc rc dc ic i (j+1)).1 + dc) ∨
    (src.getD i ' ' = dst.getD j ' ' ∧
      (transformCell src dst cc rc dc ic (i+1) (j+1)).2 = ['C', src.getD i ' '] ∧
      (transformCell src dst cc rc dc ic (i+1) (j+1)).1 =
        (transformCell src dst cc rc dc ic i j).1 + cc) ∨
    (src.getD i ' ' ≠ dst.getD j ' ' ∧
      (transformCell src dst cc rc dc ic (i+1) (j+1)).2 = ['R', src.getD i ' ', dst.getD j ' '] ∧
      (transformCell src dst cc rc dc ic (i+1) (j+1)).1 =
        (transformCell src dst cc rc dc ic i j).1 + rc) := by
  rw [transformCell]
  by_cases heq : src.getD i ' ' = dst.getD j ' ' <;>
    simp only [heq, if_true, if_false, ite_true, ite_false, ne_eq, not_true, not_false_iff] <;>
    split_ifs <;> simp_all

/-- Interior cost is the minimum of the three DP transition candidates. -/
theorem transformCell_cost_min (src dst : List Char) (cc rc dc ic : Int) (i j : Nat) :
    (transformCell src dst cc rc dc ic (i+1) (j+1)).1 =
      min (min ((transformCell src dst cc rc dc ic i j).1 +
          (if src.getD i ' ' = dst.getD j ' ' then cc else rc))
        ((transformCell src dst cc rc dc ic i (j+1)).1 + dc))
        ((transformCell src dst cc rc dc ic (i+1) j).1 + ic) := by
  rw [transformCell]
  by_cases heq : src.getD i ' ' = dst.getD j ' ' <;>
    simp only [heq, if_true, if_false, ite_true, ite_false] <;>
    (split_ifs <;> omega)

/-- Candidate tag selection as the spec words it (§4.3): the three
candidates are tried in the order diagonal, vertical, horizontal, and the
chosen tag is the first one whose cost attains the minimum of the three
candidate costs (ties favour diagonal over vertical over horizontal). -/
def specTieBreakTag (diagC vertC horizC : Int) (diagT vertT horizT : List Char) : List Char :=
  let m := min (min diagC vertC) horizC
  if diagC = m then diagT else if vertC = m then vertT else horizT

theorem transformCell_tag_tie_break (src dst : List Char) (cc rc dc ic : Int) (i j : Nat) :
    (transformCell src dst cc rc dc ic (i+1) (j+1)).2 =
      specTieBreakTag
        ((transformCell src dst cc rc dc ic i j).1 +
          (if src.getD i ' ' = dst.getD j ' ' then cc else rc))
        ((transformCell src dst cc rc dc ic i (j+1)).1 + dc)
        ((transformCell src dst cc rc dc ic (i+1) j).1 + ic)
        (if src.getD i ' ' = dst.getD j ' ' then ['C', src.getD i ' ']
          else ['R', src.getD i ' ', dst.getD j ' '])
        ['D', src.getD i ' ']
        ['I', dst.getD j ' '] := by
  rw [transformCell, specTieBreakTag]
  by_cases heq : src.getD i ' ' = dst.getD j ' ' <;>
    simp only [heq, if_true, if_false, ite_true, ite_false] <;>
    (split_ifs <;> first | rfl | omega)

/-- C3: the cost matrix satisfies `cost[0][0] = 0`, `cost[i][0] = i*delete_cost`,
`cost[0][j] = j*insert_cost`, and every interior cell is the minimum of the
three DP transitions (diagonal copy/replace, vertical delete, horizontal
insert). -/
theorem cost_matrix_invariants (src dst : List Char) (cc rc dc ic : Int)
    (hcc : 0 ≤ cc) (hrc : 0 ≤ rc) (hdc : 0 ≤ dc) (hic : 0 ≤ ic) :
    matEntry (compute_transform_tables src dst cc rc dc ic).1 0 0 = some 0 ∧
    (∀ i, 1 ≤ i → i ≤ src.length →
      matEntry (compute_transform_tables src dst cc rc dc ic).1 i 0 = some ((i : Int) * dc)) ∧
    (∀ j, 1 ≤ j → j ≤ dst.length →
      matEntry (compute_transform_tables src dst cc rc dc ic).1 0 j = some ((j : Int) * ic)) ∧
    (∀ i j, 1 ≤ i → i ≤ src.length → 1 ≤ j → j ≤ dst.length →
      ∃ a b c : Int,
        matEntry (compute_transform_tables src dst cc rc dc ic).1 (i-1) (j-1) = some a ∧
        matEntry (compute_transform_tables src dst cc rc dc ic).1 (i-1) j = some b ∧
        matEntry (compute_transform_tables src dst cc rc dc ic).1 i (j-1) = some c ∧
        matEntry (compute_transform_tables src dst cc rc dc ic).1 i j =
          some (min (min
            (a + (if src.getD (i-1) ' ' = dst.getD (j-1) ' ' then cc else rc))
            (b + dc)) (c + ic))) := by
  refine ⟨?_, ?_, ?_, ?_⟩
  · rw [matEntry_tables_fst src dst cc rc dc ic 0 0 (by omega) (by omega)]
    simp [transformCell]
  · intro i h1 h2
    rw [matEntry_tables_fst src dst cc rc dc ic i 0 h2 (by omega)]
    obtain ⟨k, rfl⟩ : ∃ k, i = k + 1 := ⟨i - 1, by omega⟩
    simp [transformCell]
  · intro j h1 h2
    rw [matEntry_tables_fst src dst cc rc dc ic 0 j (by omega) h2]
    obtain ⟨k, rfl⟩ : ∃ k, j = k + 1 := ⟨j - 1, by omega⟩
    simp [transformCell]
  · intro i j hi1 hi2 hj1 hj2
    refine ⟨_, _, _,
      matEntry_tables_fst src dst cc rc dc ic (i-1) (j-1) (by omega) (by omega),
      matEntry_tables_fst src dst cc rc dc ic (i-1) j (by omega) hj2,
      matEntry_tables_fst src dst cc rc dc ic i (j-1) hi2 (by omega), ?_⟩
    rw [matEntry_tables_fst src dst cc rc dc ic i j hi2 hj2]
    obtain ⟨k, rfl⟩ : ∃ k, i = k + 1 := ⟨i - 1, by omega⟩
    obtain ⟨l, rfl⟩ : ∃ l, j = l + 1 := ⟨j - 1, by omega⟩
    simp only [Nat.add_sub_cancel]
    exact congrArg some (transformCell_cost_min src dst cc rc dc ic k l)

/-- C3 witness at a concrete instance. -/
theorem cost_matrix_invariants_witness :
    matEntry (compute_transform_tables ['t','e'] ['t','e','s','t'] 1 1 1 1).1 0 0 = some 0 ∧
    (∀ i, 1 ≤ i → i ≤ (['t','e'] : List Char).length →
      matEntry (compute_transform_tables ['t','e'] ['t','e','s','t'] 1 1 1 1).1 i 0 =
        some ((i : Int) * 1)) ∧
    (∀ j, 1 ≤ j → j ≤ (['t','e','s','t'] : List Char).length →
      matEntry (compute_transform_tables ['t','e'] ['t','e','s','t'] 1 1 1 1).1 0 j =
        some ((j : Int) * 1)) ∧
    (∀ i j, 1 ≤ i → i ≤ (['t','e'] : List Char).length →
        1 ≤ j → j ≤ (['t','e','s','t'] : List Char).length →
      ∃ a b c : Int,
        matEntry (compute_transform_tables ['t','e'] ['t','e','s','t'] 1 1 1 1).1 (i-1) (j-1) = some a ∧
        matEntry (compute_transform_tables ['t','e'] ['t','e','s','t'] 1 1 1 1).1 (i-1) j = some b ∧
        matEntry (compute_transform_tables ['t','e'] ['t','e','s','t'] 1 1 1 1).1 i (j-1) = some c ∧
        matEntry (compute_transform_tables ['t','e'] ['t','e','s','t'] 1 1 1 1).1 i j =
          some (min (min
            (a + (if (['t','e'] : List Char).getD (i-1) ' ' =
                (['t','e','s','t'] : List Char).getD (j-1) ' ' then 1 else 1))
            (b + 1)) (c + 1))) :=
  cost_matrix_invariants ['t','e'] ['t','e','s','t'] 1 1 1 1
    (by decide) (by decide) (by decide) (by decide)

/-- C7: for every interior cell the recorded operation tag is the one the
spec's tie-break policy selects: first candidate in diagonal, vertical,
horizontal order whose cost attains the minimum of the three candidates. -/
theorem op_matrix_tie_break (src dst : List Char) (cc rc dc ic : Int)
    (i j : Nat) (hi1 : 1 ≤ i) (hi2 : i ≤ src.length) (hj1 : 1 ≤ j) (hj2 : j ≤ dst.length) :
    matEntry (compute_transform_tables src dst cc rc dc ic).2 i j =
      some (specTieBreakTag
        ((transformCell src dst cc rc dc ic (i-1) (j-1)).1 +
          (if src.getD (i-1) ' ' = dst.getD (j-1) ' ' then cc else rc))
        ((transformCell src dst cc rc dc ic (i-1) j).1 + dc)
        ((transformCell src dst cc rc dc ic i (j-1)).1 + ic)
        (if src.getD (i-1) ' ' = dst.getD (j-1) ' ' then ['C', src.getD (i-1) ' ']
          else ['R', src.getD (i-1) ' ', dst.getD (j-1) ' '])
        ['D', src.getD (i-1) ' ']
        ['I', dst.getD (j-1) ' ']) := by
  rw [matEntry_tables_snd src dst cc rc dc ic i j hi2 hj2]
  obtain ⟨k, rfl⟩ : ∃ k, i = k + 1 := ⟨i - 1, by omega⟩
  obtain ⟨l, rfl⟩ : ∃ l, j = l + 1 := ⟨j - 1, by omega⟩
  simp only [Nat.add_sub_cancel]
  exact congrArg some (transformCell_tag_tie_break src dst cc rc dc ic k l)

/-- C7 witness at a concrete interior cell. -/
theorem op_matrix_tie_break_witness :
    matEntry (compute_transform_tables ['t','e'] ['t','e','s','t'] 1 1 1 1).2 2 1 =
      some (specTieBreakTag
        ((transformCell ['t','e'] ['t','e','s','t'] 1 1 1 1 1 0).1 +
          (if (['t','e'] : List Char).getD 1 ' ' =
              (['t','e','s','t'] : List Char).getD 0 ' ' then 1 else 1))
        ((transformCell ['t','e'] ['t','e','s','t'] 1 1 1 1 1 1).1 + 1)
        ((transformCell ['t','e'] ['t','e','s','t'] 1 1 1 1 2 0).1 + 1)
        (if (['t','e'] : List Char).getD 1 ' ' =
            (['t','e','s','t'] : List Char).getD 0 ' ' then
          ['C', (['t','e'] : List Char).getD 1 ' ']
          else ['R', (['t','e'] : List Char).getD 1 ' ',
            (['t','e','s','t'] : List Char).getD 0 ' '])
        ['D', (['t','e'] : List Char).getD 1 ' ']
        ['I', (['t','e','s','t'] : List Char).getD 0 ' ']) :=
  op_matrix_tie_break ['t','e'] ['t','e','s','t'] 1 1 1 1 2 1
    (by decide) (by decide) (by decide) (by decide)

/-- Semantics of one edit operation, from the spec's words (§3): applied
to the not-yet-consumed source symbols, `Copy` keeps the current source
symbol, `Replace` substitutes it, `Delete` removes it, `Insert` adds a
symbol; returns the produced output and the remaining source (`none` when
the operation is malformed or the source is exhausted). -/
def applyOp (op : List Char) (s : List Char) : Option (List Char × List Char) :=
  match op, s with
  | 'C' :: _, a :: s' => some ([a], s')
  | ['R', _, b], _ :: s' => some ([b], s')
  | 'D' :: _, _ :: s' => some ([], s')
  | ['I', b], s1 => some ([b], s1)
  | _, _ => none

/-- Left-to-right application of an operation sequence (outputs are
concatenated, the source is threaded through). -/
def applyOpsPartial : List (List Char) → List Char → Option (List Char × List Char)
  | [], s => some ([], s)
  | op :: rest, s =>
    (applyOp op s).bind fun r => (applyOpsPartial rest r.2).map fun q => (r.1 ++ q.1, q.2)

/-- Full application of an operation sequence to a source string: every
source symbol must be consumed, and the result is the produced output. -/
def applyTransform (opsl : List (List Char)) (s : List Char) : Option (List Char) :=
  match applyOpsPartial opsl s with
  | some (out, []) => some out
  | _ => none

/-- Total cost of an operation sequence: `copy_cost` per Copy tag,
`replace_cost` per Replace, `delete_cost` per Delete, `insert_cost` per
Insert. -/
def opsCost (cc rc dc ic : Int) : List (List Char) → Int
  | [] => 0
  | op :: rest =>
    (match op with
     | 'C' :: _ => cc
     | 'R' :: _ => rc
     | 'D' :: _ => dc
     | 'I' :: _ => ic
     | _ => 0) + opsCost cc rc dc ic rest

theorem applyOpsPartial_append (l1 l2 : List (List Char)) (s : List Char) :
    applyOpsPartial (l1 ++ l2) s =
      (applyOpsPartial l1 s).bind fun r =>
        (applyOpsPartial l2 r.2).map fun q => (r.1 ++ q.1, q.2) := by
  induction l1 generalizing s with
  | nil =>
    simp only [List.nil_append, applyOpsPartial, Option.some_bind]
    cases applyOpsPartial l2 s <;> simp
  | cons op rest ih =>
    rw [List.cons_append, applyOpsPartial, applyOpsPartial]
    cases applyOp op s with
    | none => simp
    | some r =>
      simp only [Option.some_bind, ih]
      cases applyOpsPartial rest r.2 with
      | none => simp
      | some q =>
        simp only [Option.some_bind, Option.map_some]
        cases h : applyOpsPartial l2 q.2 <;> simp [h, List.append_assoc]

theorem opsCost_append (cc rc dc ic : Int) (l1 l2 : List (List Char)) :
    opsCost cc rc dc ic (l1 ++ l2) = opsCost cc rc dc ic l1 + opsCost cc rc dc ic l2 := by
  induction l1 with
  | nil => simp [opsCost]
  | cons op rest ih => simp only [List.cons_append, opsCost, List.append_eq, ih]; ring

theorem tables_snd_length (src dst : List Char) (cc rc dc ic : Int) :
    (compute_transform_tables src dst cc rc dc ic).2.length = src.length + 1 := by
  simp [compute_transform_tables]

theorem tables_snd_get (src dst : List Char) (cc rc dc ic : Int) (i j : Nat)
    (h1 : i < (compute_transform_tables src dst cc rc dc ic).2.length)
    (h2 : j < ((compute_transform_tables src dst cc rc dc ic).2.get ⟨i, h1⟩).length) :
    ((compute_transform_tables src dst cc rc dc ic).2.get ⟨i, h1⟩).get ⟨j, h2⟩ =
      (transformCell src dst cc rc dc ic i j).2 := by
  simp [compute_transform_tables, List.get_eq_getElem]

theorem tables_snd_row_length (src dst : List Char) (cc rc dc ic : Int) (i : Nat)
    (h1 : i < (compute_transform_tables src dst cc rc dc ic).2.length) :
    ((compute_transform_tables src dst cc rc dc ic).2.get ⟨i, h1⟩).length = dst.length + 1 := by
  simp [compute_transform_tables, List.get_eq_getElem]

theorem assemble_transformation_zero (ops : List (List (List Char))) :
    assemble_transformation ops 0 0 = .ok [] := by
  rw [assemble_transformation]; simp

/-- One unfolding step of the traversal on the tables built by
`compute_transform_tables`, at an in-range non-origin cell whose tag
starts with character `c`. -/
theorem assemble_tables_step (src dst : List Char) (cc rc dc ic : Int) (i j : Nat)
    (hi : i ≤ src.length) (hj : j ≤ dst.length) (hne : ¬(i = 0 ∧ j = 0))
    (c : Char) (hc : (transformCell src dst cc rc dc ic i j).2.head? = some c) :
    assemble_transformation (compute_transform_tables src dst cc rc dc ic).2 (i : Int) (j : Int) =
      (if c = 'C' ∨ c = 'R' then
        (assemble_transformation (compute_transform_tables src dst cc rc dc ic).2
          ((i : Int) - 1) ((j : Int) - 1)).map
          (fun s => s ++ [(transformCell src dst cc rc dc ic i j).2])
      else if c = 'D' then
        (assemble_transformation (compute_transform_tables src dst cc rc dc ic).2
          ((i : Int) - 1) (j : Int)).map
          (fun s => s ++ [(transformCell src dst cc rc dc ic i j).2])
      else
        (assemble_transformation (compute_transform_tables src dst cc rc dc ic).2
          (i : Int) ((j : Int) - 1)).map
          (fun s => s ++ [(transformCell src dst cc rc dc ic i j).2])) := by
  have h0 : ¬((i : Int) = 0 ∧ (j : Int) = 0) := by omega
  have hI : 0 ≤ (i : Int) ∧ (i : Int).toNat < (compute_transform_tables src dst cc rc dc ic).2.length := by
    rw [tables_snd_length]; omega
  conv_lhs => rw [assemble_transformation]
  rw [dif_neg h0, dif_pos hI]
  have hJ : 0 ≤ (j : Int) ∧ (j : Int).toNat <
      ((compute_transform_tables src dst cc rc dc ic).2.get ⟨(i : Int).toNat, hI.2⟩).length := by
    rw [tables_snd_row_length]; omega
  rw [dif_pos hJ]
  have hcell : ((compute_transform_tables src dst cc rc dc ic).2.get
      ⟨(i : Int).toNat, hI.2⟩).get ⟨(j : Int).toNat, hJ.2⟩ =
      (transformCell src dst cc rc dc ic i j).2 := by
    have hri : (i : Int).toNat = i := by omega
    have hrj : (j : Int).toNat = j := by omega
    simp only [hri, hrj] at *
    exact tables_snd_get src dst cc rc dc ic i j hI.2 hJ.2
  simp only [hcell, hc]

theorem transformCell_row0 (src dst : List Char) (cc rc dc ic : Int) (i : Nat) :
    (transformCell src dst cc rc dc ic i 0).1 = (i : Int) * dc := by
  cases i <;> simp [transformCell]

theorem transformCell_col0 (src dst : List Char) (cc rc dc ic : Int) (j : Nat) :
    (transformCell src dst cc rc dc ic 0 j).1 = (j : Int) * ic := by
  cases j <;> simp [transformCell]

theorem applyOpsPartial_singleton (op : List Char) (s : List Char) :
    applyOpsPartial [op] s = applyOp op s := by
  cases h : applyOp op s <;> simp [applyOpsPartial, h]

theorem take_succ_getD {α : Type} (l : List α) (i : Nat) (h : i < l.length) (d : α) :
    l.take (i+1) = l.take i ++ [l.getD i d] := by
  rw [List.take_succ]
  simp [List.getElem?_eq_getElem h, List.getD_eq_getElem?_getD]

/-- Master round-trip property of the traversal on tables built by
`compute_transform_tables`: from any in-range cell `(i, j)` the traversal
succeeds, produces at most `i + j` operations, transforms `src.take i`
into `dst.take j` consuming exactly the `i` taken source symbols, and the
summed per-operation cost is the cost-matrix entry at `(i, j)`. -/
theorem assemble_tables_master (src dst : List Char) (cc rc dc ic : Int) :
    ∀ N i j, i + j ≤ N → i ≤ src.length → j ≤ dst.length →
      ∃ seq,
        assemble_transformation (compute_transform_tables src dst cc rc dc ic).2
          (i : Int) (j : Int) = .ok seq ∧
        seq.length ≤ i + j ∧
        (∀ rest, applyOpsPartial seq (src.take i ++ rest) = some (dst.take j, rest)) ∧
        opsCost cc rc dc ic seq = (transformCell src dst cc rc dc ic i j).1 := by
  intro N
  induction N with
  | zero =>
    intro i j hN hi hj
    obtain ⟨rfl, rfl⟩ : i = 0 ∧ j = 0 := by omega
    exact ⟨[], by exact_mod_cast assemble_transformation_zero _, by simp,
      fun rest => by simp [applyOpsPartial], by simp [opsCost, transformCell]⟩
  | succ N ihN =>
    intro i j hN hi hj
    by_cases h00 : i = 0 ∧ j = 0
    · obtain ⟨rfl, rfl⟩ := h00
      exact ⟨[], by exact_mod_cast assemble_transformation_zero _, by simp,
        fun rest => by simp [applyOpsPartial], by simp [opsCost, transformCell]⟩
    rcases i with _ | i
    · rcases j with _ | j
      · exact absurd ⟨rfl, rfl⟩ h00
      · -- top row: Insert
        have hcell : (transformCell src dst cc rc dc ic 0 (j+1)).2 = ['I', dst.getD j ' '] := by
          simp [transformCell]
        have hstep := assemble_tables_step src dst cc rc dc ic 0 (j+1) hi hj h00 'I'
          (by rw [hcell]; rfl)
        obtain ⟨seq', hok, hlen, happ, hcost⟩ := ihN 0 j (by omega) hi (by omega)
        refine ⟨seq' ++ [(transformCell src dst cc rc dc ic 0 (j+1)).2], ?_, ?_, ?_, ?_⟩
        · have e1 : ((j+1 : Nat) : Int) - 1 = (j : Nat) := by push_cast; ring
          rw [hstep, if_neg (by decide), if_neg (by decide), e1, hok]
          rfl
        · simp; omega
        · intro rest
          rw [applyOpsPartial_append]
          simp only [List.take_zero, List.nil_append] at happ ⊢
          rw [happ rest, hcell]
          rw [take_succ_getD dst j (by omega) ' ']
          simp [applyOpsPartial_singleton, applyOp]
        · rw [opsCost_append, hcost, hcell]
          rw [transformCell_col0, transformCell_col0]
          simp [opsCost]
          ring
    · rcases j with _ | j
      · -- left column: Delete
        have hcell : (transformCell src dst cc rc dc ic (i+1) 0).2 = ['D', src.getD i ' '] := by
          simp [transformCell]
        have hstep := assemble_tables_step src dst cc rc dc ic (i+1) 0 hi hj h00 'D'
          (by rw [hcell]; rfl)
        obtain ⟨seq', hok, hlen, happ, hcost⟩ := ihN i 0 (by omega) (by omega) hj
        refine ⟨seq' ++ [(transformCell src dst cc rc dc ic (i+1) 0).2], ?_, ?_, ?_, ?_⟩
        · have e1 : ((i+1 : Nat) : Int) - 1 = (i : Nat) := by push_cast; ring
          rw [hstep, if_neg (by decide), if_pos (by decide), e1, hok]
          rfl
        · simp; omega
        · intro rest
          rw [applyOpsPartial_append]
          rw [take_succ_getD src i (by omega) ' ', List.append_assoc]
          rw [happ ([src.getD i ' '] ++ rest), hcell]
          simp [applyOpsPartial_singleton, applyOp]
        · rw [opsCost_append, hcost, hcell]
          rw [transformCell_row0, transformCell_row0]
          simp [opsCost]
          ring
      · -- interior cell
        have e1 : ((i+1 : Nat) : Int) - 1 = (i : Nat) := by push_cast; ring
        have e2 : ((j+1 : Nat) : Int) - 1 = (j : Nat) := by push_cast; ring
        rcases transformCell_succ_succ src dst cc rc dc ic i j with
          ⟨hcell, hcost2⟩ | ⟨hcell, hcost2⟩ | ⟨heq, hcell, hcost2⟩ | ⟨hne, hcell, hcost2⟩
        · -- Insert
          have hstep := assemble_tables_step src dst cc rc dc ic (i+1) (j+1) hi hj h00 'I'
            (by rw [hcell]; rfl)
          obtain ⟨seq', hok, hlen, happ, hcost⟩ := ihN (i+1) j (by omega) hi (by omega)
          refine ⟨seq' ++ [(transformCell src dst cc rc dc ic (i+1) (j+1)).2], ?_, ?_, ?_, ?_⟩
          · rw [hstep, if_neg (by decide), if_neg (by decide), e2, hok]; rfl
          · simp; omega
          · intro rest
            rw [applyOpsPartial_append, happ rest, hcell]
            rw [take_succ_getD dst j (by omega) ' ']
            simp [applyOpsPartial_singleton, applyOp]
          · rw [opsCost_append, hcost, hcell, hcost2]
            simp [opsCost]
        · -- Delete
          have hstep := assemble_tables_step src dst cc rc dc ic (i+1) (j+1) hi hj h00 'D'
            (by rw [hcell]; rfl)
          obtain ⟨seq', hok, hlen, happ, hcost⟩ := ihN i (j+1) (by omega) (by omega) hj
          refine ⟨seq' ++ [(transformCell src dst cc rc dc ic (i+1) (j+1)).2], ?_, ?_, ?_, ?_⟩
          · rw [hstep, if_neg (by decide), if_pos (by decide), e1, hok]; rfl
          · simp; omega
          · intro rest
            rw [applyOpsPartial_append]
            rw [take_succ_getD src i (by omega) ' ', List.append_assoc]
            rw [happ ([src.getD i ' '] ++ rest), hcell]
            simp [applyOpsPartial_singleton, applyOp]
          · rw [opsCost_append, hcost, hcell, hcost2]
            simp [opsCost]
        · -- Copy
          have hstep := assemble_tables_step src dst cc rc dc ic (i+1) (j+1) hi hj h00 'C'
            (by rw [hcell]; rfl)
          obtain ⟨seq', hok, hlen, happ, hcost⟩ := ihN i j (by omega) (by omega) (by omega)
          refine ⟨seq' ++ [(transformCell src dst cc rc dc ic (i+1) (j+1)).2], ?_, ?_, ?_, ?_⟩
          · rw [hstep, if_pos (by decide), e1, e2, hok]; rfl
          · simp; omega
          · intro rest
            rw [applyOpsPartial_append]
            rw [take_succ_getD src i (by omega) ' ', List.append_assoc]
            rw [happ ([src.getD i ' '] ++ rest), hcell]
            rw [take_succ_getD dst j (by omega) ' ', ← heq]
            simp [applyOpsPartial_singleton, applyOp]
          · rw [opsCost_append, hcost, hcell, hcost2]
            simp [opsCost]
        · -- Replace
          have hstep := assemble_tables_step src dst cc rc dc ic (i+1) (j+1) hi hj h00 'R'
            (by rw [hcell]; rfl)
          obtain ⟨seq', hok, hlen, happ, hcost⟩ := ihN i j (by omega) (by omega) (by omega)
          refine ⟨seq' ++ [(transformCell src dst cc rc dc ic (i+1) (j+1)).2], ?_, ?_, ?_, ?_⟩
          · rw [hstep, if_pos (by decide), e1, e2, hok]; rfl
          · simp; omega
          · intro rest
            rw [applyOpsPartial_append]
            rw [take_succ_getD src i (by omega) ' ', List.append_assoc]
            rw [happ ([src.getD i ' '] ++ rest), hcell]
            rw [take_succ_getD dst j (by omega) ' ']
            simp [applyOpsPartial_singleton, applyOp]
          · rw [opsCost_append, hcost, hcell, hcost2]
            simp [opsCost]

/-- C2: round-trip: the operation sequence assembled at
`(len src, len dst)` applies to the source yielding exactly the
destination (Copy keeps a symbol, Replace substitutes, Delete removes,
Insert adds), and its summed per-operation costs equal
`costs[len src][len dst]`. -/
theorem transformation_round_trip (src dst : List Char) (cc rc dc ic : Int)
    (hcc : 0 ≤ cc) (hrc : 0 ≤ rc) (hdc : 0 ≤ dc) (hic : 0 ≤ ic) :
    ∃ seq,
      assemble_transformation (compute_transform_tables src dst cc rc dc ic).2
        (src.length : Int) (dst.length : Int) = .ok seq ∧
      applyTransform seq src = some dst ∧
      matEntry (compute_transform_tables src dst cc rc dc ic).1 src.length dst.length =
        some (opsCost cc rc dc ic seq) := by
  obtain ⟨seq, hok, hlen, happ, hcost⟩ :=
    assemble_tables_master src dst cc rc dc ic (src.length + dst.length) src.length dst.length
      le_rfl le_rfl le_rfl
  refine ⟨seq, hok, ?_, ?_⟩
  · have h := happ []
    simp only [List.append_nil, List.take_length] at h
    simp [applyTransform, h]
  · rw [matEntry_tables_fst src dst cc rc dc ic _ _ le_rfl le_rfl, hcost]

/-- C2 witness at the concrete instance of spec scenario 5. -/
theorem transformation_round_trip_witness :
    ∃ seq,
      assemble_transformation (compute_transform_tables ['t','e'] ['t','e','s','t'] 1 1 1 1).2
        ((['t','e'] : List Char).length : Int) ((['t','e','s','t'] : List Char).length : Int) =
        .ok seq ∧
      applyTransform seq ['t','e'] = some ['t','e','s','t'] ∧
      matEntry (compute_transform_tables ['t','e'] ['t','e','s','t'] 1 1 1 1).1
        (['t','e'] : List Char).length (['t','e','s','t'] : List Char).length =
        some (opsCost 1 1 1 1 seq) :=
  transformation_round_trip ['t','e'] ['t','e','s','t'] 1 1 1 1
    (by decide) (by decide) (by decide) (by decide)

/-- C9: on tables built by `compute_transform_tables` the traversal from
any in-range cell terminates with a result, the base case `(0,0)` gives
the empty sequence, and the traversal appends one operation per step with
each step strictly decreasing `i + j`, hence at most `i + j` operations. -/
theorem assemble_traversal_terminates (src dst : List Char) (cc rc dc ic : Int)
    (i j : Nat) (hi : i ≤ src.length) (hj : j ≤ dst.length) :
    (∃ seq,
      assemble_transformation (compute_transform_tables src dst cc rc dc ic).2
        (i : Int) (j : Int) = .ok seq ∧ seq.length ≤ i + j) ∧
    assemble_transformation (compute_transform_tables src dst cc rc dc ic).2 0 0 = .ok [] := by
  obtain ⟨seq, hok, hlen, -, -⟩ :=
    assemble_tables_master src dst cc rc dc ic (i + j) i j le_rfl hi hj
  exact ⟨⟨seq, hok, hlen⟩, assemble_transformation_zero _⟩

/-- C9 witness at a concrete in-range cell. -/
theorem assemble_traversal_terminates_witness :
    (∃ seq,
      assemble_transformation (compute_transform_tables ['t','e'] ['t','e','s','t'] 1 1 1 1).2
        ((2 : Nat) : Int) ((4 : Nat) : Int) = .ok seq ∧ seq.length ≤ 2 + 4) ∧
    assemble_transformation (compute_transform_tables ['t','e'] ['t','e','s','t'] 1 1 1 1).2
      0 0 = .ok [] :=
  assemble_traversal_terminates ['t','e'] ['t','e','s','t'] 1 1 1 1 2 4
    (by decide) (by decide)

/-- Out-of-range coordinates (other than the base case `(0,0)`, which
returns without inspecting the matrix) raise an index error. -/
theorem assemble_transformation_oob (ops : List (List (List Char))) (i j : Nat)
    (h0 : ¬(i = 0 ∧ j = 0))
    (hout : ops.length ≤ i ∨ ∃ hi : i < ops.length, (ops.get ⟨i, hi⟩).length ≤ j) :
    assemble_transformation ops (i : Int) (j : Int) = .error .indexError := by
  rw [assemble_transformation]
  rw [dif_neg (by omega : ¬((i : Int) = 0 ∧ (j : Int) = 0))]
  rcases hout with hbig | ⟨hlt, hrow⟩
  · rw [dif_neg]
    omega
  · rw [dif_pos ⟨by omega, by omega⟩]
    rw [dif_neg]
    intro hcon
    apply absurd hcon.2
    simp only [not_lt]
    convert hrow using 2

/-- C8 counterexample: on the 1 × 2 matrix `[["0", ""]]` the in-range
coordinates `(0, 1)` do not return a sequence: the empty tag cell raises
an index error (`cell[0]` on an empty string), refuting the claim that
every in-range coordinate pair returns without error. -/
theorem assemble_in_range_failure :
    ([[['0'], []]] : List (List (List Char))).length = 1 ∧
    (([[['0'], []]] : List (List (List Char))).get ⟨0, by decide⟩).length = 2 ∧
    assemble_transformation [[['0'], []]] 0 1 = .error .indexError := by
  refine ⟨rfl, rfl, ?_⟩
  rw [assemble_transformation]
  rfl

/-- C8 (amended): coordinates exceeding the matrix dimensions raise the
index error — except the base case `(0,0)`, which returns `[]` without
inspecting the matrix — and in-range coordinates return a sequence
without error on the operation matrices `compute_transform_tables`
produces (an arbitrary matrix can fail in range, see the counterexample). -/
theorem assemble_bounds_amended :
    (∀ (ops : List (List (List Char))) (i j : Nat), ¬(i = 0 ∧ j = 0) →
      (ops.length ≤ i ∨ ∃ hi : i < ops.length, (ops.get ⟨i, hi⟩).length ≤ j) →
      assemble_transformation ops (i : Int) (j : Int) = .error .indexError) ∧
    (∀ (src dst : List Char) (cc rc dc ic : Int) (i j : Nat),
      i ≤ src.length → j ≤ dst.length →
      ∃ seq, assemble_transformation (compute_transform_tables src dst cc rc dc ic).2
        (i : Int) (j : Int) = .ok seq) := by
  refine ⟨assemble_transformation_oob, ?_⟩
  intro src dst cc rc dc ic i j hi hj
  obtain ⟨seq, hok, -, -, -⟩ :=
    assemble_tables_master src dst cc rc dc ic (i + j) i j le_rfl hi hj
  exact ⟨seq, hok⟩

/-- C8 witness: both halves of the amended claim at concrete inputs. -/
theorem assemble_bounds_amended_witness :
    assemble_transformation [[['0']]] ((1 : Nat) : Int) ((0 : Nat) : Int) =
      .error .indexError ∧
    ∃ seq, assemble_transformation (compute_transform_tables ['a'] ['b'] 1 1 1 1).2
      ((1 : Nat) : Int) ((1 : Nat) : Int) = .ok seq :=
  ⟨assemble_bounds_amended.1 [[['0']]] 1 0 (by decide) (Or.inl (by decide)),
   assemble_bounds_amended.2 ['a'] ['b'] 1 1 1 1 1 1 (by decide) (by decide)⟩

/-! ## knuth_morris_pratt.py -/

/-- Bound invariant of a failure table: every entry is at most its index.
The Python loops maintain it implicitly; it is what makes the fallback
steps (`i = failure[i-1]`, `j = failure[j-1]`) decrease, hence the loops
terminate and the indexings stay in bounds. -/
def EntryLE (failure : List Nat) : Prop :=
  ∀ (k : Nat) (hk : k < failure.length), failure.get ⟨k, hk⟩ ≤ k

theorem entryLE_append (failure : List Nat) (v : Nat) (h : EntryLE failure)
    (hv : v ≤ failure.length) : EntryLE (failure ++ [v]) := by
  intro k hk
  simp only [List.length_append, List.length_singleton] at hk
  rcases lt_or_ge k failure.length with hlt | hge
  · rw [List.get_append k hlt]
    exact h k hlt
  · have hk0 : k = failure.length := by omega
    subst hk0
    simp [List.get_append_right]
    omega

/-- Loop of `get_failure_array` (source lines 71-81): cursor `i` is the
candidate prefix length, `j` the current position; the table grows by one
entry whenever `j` advances.  The propositional arguments record the loop
invariants (entries bounded by their index, `i < j`, table length `j`)
that justify the in-bounds accesses `pattern[i]`, `failure[i-1]` and the
termination of the fallback. -/
def gfaLoop (pattern : List Char) (j i : Nat) (failure : List Nat)
    (hfail : EntryLE failure) (hij : i < j) (hlen : failure.length = j) : List Nat :=
  if hj : j < pattern.length then
    if pattern.get ⟨i, by omega⟩ = pattern.get ⟨j, hj⟩ then
      gfaLoop pattern (j+1) (i+1) (failure ++ [i+1])
        (entryLE_append failure (i+1) hfail (by omega)) (by omega) (by simp [hlen])
    else if hi : 0 < i then
      gfaLoop pattern j (failure.get ⟨i-1, by omega⟩) failure hfail
        (lt_of_le_of_lt (le_trans (hfail (i-1) (by omega)) (Nat.sub_le i 1)) hij) hlen
    else
      gfaLoop pattern (j+1) 0 (failure ++ [0])
        (entryLE_append failure 0 hfail (by omega)) (by omega) (by simp [hlen])
  else failure
termination_by 2 * (pattern.length - j) + i
decreasing_by
  · simp_wf; omega
  · simp_wf
    have h1 := hfail (i-1) (show i - 1 < failure.length by omega)
    simp only [List.get_eq_getElem] at h1
    omega
  · simp_wf; omega

/-- `get_failure_array(pattern)` (source lines 59-82): starts from
`failure = [0]`, `i = 0`, `j = 1`. -/
def get_failure_array (pattern : List Char) : List Nat :=
  gfaLoop pattern 1 0 [0]
    (by intro k hk; have hk0 : k = 0 := Nat.lt_one_iff.mp (by simpa using hk);
        subst hk0; exact le_rfl)
    (by omega) rfl

theorem gfaLoop_entryLE (pattern : List Char) (j i : Nat) (failure : List Nat)
    (hfail : EntryLE failure) (hij : i < j) (hlen : failure.length = j) :
    EntryLE (gfaLoop pattern j i failure hfail hij hlen) := by
  refine gfaLoop.induct pattern
    (motive := fun j i failure hfail hij hlen =>
      EntryLE (gfaLoop pattern j i failure hfail hij hlen))
    ?_ ?_ ?_ ?_ j i failure hfail hij hlen
  · intro i failure hfail hij h heq ih
    rw [gfaLoop, dif_pos h, if_pos heq]
    exact ih
  · intro i failure hfail hpos hij h hne ih
    rw [gfaLoop, dif_pos h, if_neg hne, dif_pos hpos]
    exact ih
  · intro i failure hfail hpos hij h hne ih
    rw [gfaLoop, dif_pos h, if_neg hne, dif_neg hpos]
    exact ih
  · intro i failure hfail hij h
    rw [gfaLoop, dif_neg h]
    exact hfail

theorem get_failure_array_entryLE (pattern : List Char) :
    EntryLE (get_failure_array pattern) :=
  gfaLoop_entryLE pattern 1 0 [0] _ _ _

/-- Scan loop of `kmp` (source lines 43-56).  `hfail` carries the entry
bound of the failure table, which makes the fallback `j = failure[j-1]`
decrease. -/
def kmpLoop (pattern text : List Char) (failure : List Nat) (hfail : EntryLE failure)
    (i j : Nat) : Except PyError Bool :=
  if hi : i < text.length then
    match hp : pattern.get? j with
    | none => .error .indexError
    | some pc =>
      if pc = text.get ⟨i, hi⟩ then
        if j = pattern.length - 1 then .ok true
        else kmpLoop pattern text failure hfail (i+1) (j+1)
      else if hj : 0 < j then
        match hf : failure.get? (j-1) with
        | none => .error .indexError
        | some f => kmpLoop pattern text failure hfail i f
      else kmpLoop pattern text failure hfail (i+1) j
  else .ok false
termination_by 2 * (text.length - i) + j
decreasing_by
  · simp_wf; omega
  · simp_wf
    obtain ⟨hlt, hget⟩ := List.get?_eq_some.mp hf
    have := hfail (j-1) hlt
    omega
  · simp_wf; omega

/-- `kmp(pattern, text)` (source lines 6-56): builds the failure array,
then scans with both cursors starting at 0. -/
def kmp (pattern text : List Char) : Except PyError Bool :=
  kmpLoop pattern text (get_failure_array pattern) (get_failure_array_entryLE pattern) 0 0

theorem gfaLoop_length (pattern : List Char) (j i : Nat) (failure : List Nat)
    (hfail : EntryLE failure) (hij : i < j) (hlen : failure.length = j) :
    (gfaLoop pattern j i failure hfail hij hlen).length = max pattern.length j := by
  refine gfaLoop.induct pattern
    (motive := fun j i failure hfail hij hlen =>
      (gfaLoop pattern j i failure hfail hij hlen).length = max pattern.length j)
    ?_ ?_ ?_ ?_ j i failure hfail hij hlen
  · intro i failure hfail hij h heq ih
    rw [gfaLoop, dif_pos h, if_pos heq, ih]
    omega
  · intro i failure hfail hpos hij h hne ih
    rw [gfaLoop, dif_pos h, if_neg hne, dif_pos hpos]
    exact ih
  · intro i failure hfail hpos hij h hne ih
    rw [gfaLoop, dif_pos h, if_neg hne, dif_neg hpos, ih]
    omega
  · intro i failure hfail hij h
    rw [gfaLoop, dif_neg h]
    omega

theorem get_failure_array_length (pattern : List Char) :
    (get_failure_array pattern).length = max pattern.length 1 := by
  rw [get_failure_array, gfaLoop_length]

theorem kmpLoop_exhausted (pattern text : List Char) (failure : List Nat)
    (hfail : EntryLE failure) (i j : Nat) (h : ¬ i < text.length) :
    kmpLoop pattern text failure hfail i j = .ok false := by
  rw [kmpLoop, dif_neg h]

theorem kmpLoop_pattern_oob (pattern text : List Char) (failure : List Nat)
    (hfail : EntryLE failure) (i j : Nat) (h : i < text.length)
    (hp : pattern.get? j = none) :
    kmpLoop pattern text failure hfail i j = .error .indexError := by
  rw [kmpLoop, dif_pos h]
  split
  · rfl
  · rename_i pc heq
    rw [hp] at heq
    cases heq

theorem kmpLoop_match_last (pattern text : List Char) (failure : List Nat)
    (hfail : EntryLE failure) (i j : Nat) (h : i < text.length) (pc : Char)
    (hp : pattern.get? j = some pc) (he : pc = text.get ⟨i, h⟩)
    (hj : j = pattern.length - 1) :
    kmpLoop pattern text failure hfail i j = .ok true := by
  rw [kmpLoop, dif_pos h]
  split
  · rename_i heq; rw [hp] at heq; cases heq
  · rename_i pc' heq
    rw [hp] at heq
    injection heq with heq'
    subst heq'
    rw [if_pos he, if_pos hj]

theorem kmpLoop_match_step (pattern text : List Char) (failure : List Nat)
    (hfail : EntryLE failure) (i j : Nat) (h : i < text.length) (pc : Char)
    (hp : pattern.get? j = some pc) (he : pc = text.get ⟨i, h⟩)
    (hj : j ≠ pattern.length - 1) :
    kmpLoop pattern text failure hfail i j =
      kmpLoop pattern text failure hfail (i+1) (j+1) := by
  rw [kmpLoop, dif_pos h]
  split
  · rename_i heq; rw [hp] at heq; cases heq
  · rename_i pc' heq
    rw [hp] at heq
    injection heq with heq'
    subst heq'
    rw [if_pos he, if_neg hj]

theorem kmpLoop_fallback (pattern text : List Char) (failure : List Nat)
    (hfail : EntryLE failure) (i j : Nat) (h : i < text.length) (pc : Char)
    (hp : pattern.get? j = some pc) (hne : ¬ pc = text.get ⟨i, h⟩)
    (hj : 0 < j) (f : Nat) (hf : failure.get? (j-1) = some f) :
    kmpLoop pattern text failure hfail i j =
      kmpLoop pattern text failure hfail i f := by
  rw [kmpLoop, dif_pos h]
  split
  · rename_i heq; rw [hp] at heq; cases heq
  · rename_i pc' heq
    rw [hp] at heq
    injection heq with heq'
    subst heq'
    rw [if_neg hne, dif_pos hj]
    split
    · rename_i heq2; rw [hf] at heq2; cases heq2
    · rename_i f' heq2
      rw [hf] at heq2
      injection heq2 with heq2'
      subst heq2'
      rfl

theorem kmpLoop_advance_zero (pattern text : List Char) (failure : List Nat)
    (hfail : EntryLE failure) (i j : Nat) (h : i < text.length) (pc : Char)
    (hp : pattern.get? j = some pc) (hne : ¬ pc = text.get ⟨i, h⟩) (hj : ¬ 0 < j) :
    kmpLoop pattern text failure hfail i j =
      kmpLoop pattern text failure hfail (i+1) j := by
  rw [kmpLoop, dif_pos h]
  split
  · rename_i heq; rw [hp] at heq; cases heq
  · rename_i pc' heq
    rw [hp] at heq
    injection heq with heq'
    subst heq'
    rw [if_neg hne, dif_neg hj]

/-- The scan loop never raises an index error while `j` stays below the
pattern length and the failure table covers the pattern: every `pattern[j]`
and `failure[j-1]` access is in bounds, matches keep `j < len(pattern)`,
and fallbacks only decrease `j`. -/
theorem kmpLoop_no_error (pattern text : List Char) (failure : List Nat)
    (hfail : EntryLE failure) (hcov : pattern.length ≤ failure.length) :
    ∀ (n i j : Nat), 2 * (text.length - i) + j ≤ n → j < pattern.length →
      ∃ b, kmpLoop pattern text failure hfail i j = .ok b := by
  intro n
  induction n with
  | zero =>
    intro i j hn hj
    have hi : ¬ i < text.length := by omega
    exact ⟨false, kmpLoop_exhausted pattern text failure hfail i j hi⟩
  | succ n ih =>
    intro i j hn hj
    by_cases hi : i < text.length
    · obtain ⟨pc, hp⟩ : ∃ pc, pattern.get? j = some pc :=
        ⟨pattern.get ⟨j, hj⟩, List.get?_eq_get hj⟩
      by_cases he : pc = text.get ⟨i, hi⟩
      · by_cases hlast : j = pattern.length - 1
        · exact ⟨true, kmpLoop_match_last pattern text failure hfail i j hi pc hp he hlast⟩
        · rw [kmpLoop_match_step pattern text failure hfail i j hi pc hp he hlast]
          exact ih (i+1) (j+1) (by omega) (by omega)
      · by_cases hj0 : 0 < j
        · obtain ⟨f, hf⟩ : ∃ f, failure.get? (j-1) = some f :=
            ⟨failure.get ⟨j-1, by omega⟩, List.get?_eq_get (by omega)⟩
          have hfle : f ≤ j - 1 := by
            have h1 := hfail (j-1) (by omega)
            have h2 := List.get?_eq_get (show j-1 < failure.length by omega)
            rw [hf] at h2
            injection h2 with h2'
            omega
          rw [kmpLoop_fallback pattern text failure hfail i j hi pc hp he hj0 f hf]
          exact ih i f (by omega) (by omega)
        · rw [kmpLoop_advance_zero pattern text failure hfail i j hi pc hp he hj0]
          exact ih (i+1) j (by omega) hj
    · exact ⟨false, kmpLoop_exhausted pattern text failure hfail i j hi⟩

/-- C10: with a non-empty pattern the scan loop keeps its accesses in
bounds from every loop state respecting the cursor invariant
(`j ≤ i`, `j < len(pattern)`), and `kmp` never raises an indexing error —
for every text, including texts shorter than the pattern. -/
theorem kmp_no_indexing_error (pattern text : List Char) (h : pattern ≠ []) :
    (∀ i j, j ≤ i → j < pattern.length →
      ∃ b : Bool, kmpLoop pattern text (get_failure_array pattern)
        (get_failure_array_entryLE pattern) i j = .ok b) ∧
    ∃ b : Bool, kmp pattern text = .ok b := by
  have hcov : pattern.length ≤ (get_failure_array pattern).length := by
    rw [get_failure_array_length]
    exact le_max_left _ _
  constructor
  · intro i j hji hj
    exact kmpLoop_no_error pattern text (get_failure_array pattern)
      (get_failure_array_entryLE pattern) hcov (2 * text.length + j) i j (by omega) hj
  · rw [kmp]
    exact kmpLoop_no_error pattern text (get_failure_array pattern)
      (get_failure_array_entryLE pattern) hcov (2 * text.length) 0 0 (by omega)
      (List.length_pos.mpr h)

/-- C10 witness at a concrete pattern and text. -/
theorem kmp_no_indexing_error_witness :
    (∀ i j, j ≤ i → j < (['a','b'] : List Char).length →
      ∃ b : Bool, kmpLoop ['a','b'] ['b','a'] (get_failure_array ['a','b'])
        (get_failure_array_entryLE ['a','b']) i j = .ok b) ∧
    ∃ b : Bool, kmp ['a','b'] ['b','a'] = .ok b :=
  kmp_no_indexing_error ['a','b'] ['b','a'] (by decide)

/-- C4 counterexample: with an empty pattern, `get_failure_array` returns
`[0]` without error and `kmp` on the empty text returns false without
error — neither fails with an input-validation error. -/
theorem empty_pattern_no_invalid_input_error :
    get_failure_array [] = [0] ∧ kmp [] [] = Except.ok false := by
  constructor
  · rw [get_failure_array, gfaLoop, dif_neg (by simp)]
  · rw [kmp]
    exact kmpLoop_exhausted _ _ _ _ 0 0 (by simp)

/-- C4 (amended): on an empty pattern `get_failure_array` returns `[0]`
(a one-entry table, not an error), and `kmp` returns false for the empty
text and fails with an uncaught IndexError (from the unchecked access
`pattern[0]`) for every non-empty text — there is no checked
InvalidInput rejection. -/
theorem empty_pattern_behavior :
    get_failure_array [] = [0] ∧
    kmp [] [] = Except.ok false ∧
    ∀ (c : Char) (t : List Char), kmp [] (c :: t) = .error .indexError := by
  refine ⟨?_, ?_, ?_⟩
  · rw [get_failure_array, gfaLoop, dif_neg (by simp)]
  · rw [kmp]
    exact kmpLoop_exhausted _ _ _ _ 0 0 (by simp)
  · intro c t
    rw [kmp]
    exact kmpLoop_pattern_oob _ _ _ _ 0 0 (by simp) rfl

/-! ### Borders of pattern prefixes

`PrefBorder P j k` says the length-`k` prefix of `P` is a proper border of
the length-`j` prefix of `P`: `k < j` and the first `k` symbols coincide
with the last `k` symbols of `P.take j`, stated index-wise through `get?`.
`mbF P j` is the longest such `k` (the failure value for position `j-1`). -/
def PrefBorder (P : List Char) (j k : Nat) : Prop :=
  k < j ∧ ∀ x, x < k → P.get? x = P.get? (j - k + x)

instance (P : List Char) (j k : Nat) : Decidable (PrefBorder P j k) := by
  unfold PrefBorder
  exact instDecidableAnd

/-- Longest proper border length of the length-`j` prefix of `P`. -/
def mbF (P : List Char) (j : Nat) : Nat :=
  Nat.findGreatest (PrefBorder P j) (j - 1)

theorem prefBorder_zero (P : List Char) (j : Nat) (hj : 0 < j) : PrefBorder P j 0 :=
  ⟨hj, fun x hx => absurd hx (Nat.not_lt_zero x)⟩

theorem mbF_isBorder (P : List Char) (j : Nat) (hj : 0 < j) :
    PrefBorder P j (mbF P j) := by
  rcases Nat.eq_zero_or_pos (mbF P j) with h0 | hpos
  · rw [h0]; exact prefBorder_zero P j hj
  · exact Nat.findGreatest_spec (Nat.zero_le _) (prefBorder_zero P j hj)

theorem mbF_le (P : List Char) (j : Nat) : mbF P j ≤ j - 1 :=
  Nat.findGreatest_le _

theorem mbF_max (P : List Char) (j k : Nat) (hk : PrefBorder P j k) : k ≤ mbF P j :=
  Nat.le_findGreatest (by have := hk.1; omega) hk

/-- Growing a border: if the length-`k` prefix borders the length-`j`
prefix and the next symbols agree, the length-`k+1` prefix borders the
length-`j+1` prefix. -/
theorem prefBorder_grow (P : List Char) (j k : Nat) (hb : PrefBorder P j k)
    (hs : P.get? k = P.get? j) : PrefBorder P (j+1) (k+1) := by
  obtain ⟨hkj, hm⟩ := hb
  refine ⟨by omega, fun x hx => ?_⟩
  rcases Nat.lt_or_ge x k with hxk | hxk
  · rw [hm x hxk]
    congr 1
    omega
  · have hxeq : x = k := by omega
    subst hxeq
    rw [hs]
    congr 1
    omega

/-- Shrinking a border: a positive border of the length-`j+1` prefix comes
from a border of the length-`j` prefix whose following symbols agree. -/
theorem prefBorder_shrink (P : List Char) (j k : Nat) (hb : PrefBorder P (j+1) (k+1)) :
    PrefBorder P j k ∧ P.get? k = P.get? j := by
  obtain ⟨hkj, hm⟩ := hb
  constructor
  · refine ⟨by omega, fun x hx => ?_⟩
    have := hm x (by omega)
    rw [this]
    congr 1
    omega
  · have := hm k (by omega)
    rw [this]
    congr 1
    omega

/-- Border transitivity: a border of a border (as a prefix length) is a
border of the longer prefix. -/
theorem prefBorder_trans (P : List Char) (j b a : Nat)
    (hab : PrefBorder P b a) (hbj : PrefBorder P j b) : PrefBorder P j a := by
  obtain ⟨hab1, hab2⟩ := hab
  obtain ⟨hbj1, hbj2⟩ := hbj
  refine ⟨by omega, fun x hx => ?_⟩
  rw [hab2 x hx]
  have := hbj2 (b - a + x) (by omega)
  rw [this]
  congr 1
  omega

/-- Border chain: of two borders of the same prefix, the shorter is a
border of the longer (taken as a prefix). -/
theorem prefBorder_chain (P : List Char) (j a b : Nat) (hab : a < b)
    (ha : PrefBorder P j a) (hb : PrefBorder P j b) : PrefBorder P b a := by
  obtain ⟨ha1, ha2⟩ := ha
  obtain ⟨hb1, hb2⟩ := hb
  refine ⟨hab, fun x hx => ?_⟩
  rw [ha2 x hx]
  have := hb2 (b - a + x) (by omega)
  rw [this]
  congr 1
  omega

/-- Bound on borders of the next prefix: any border of the length-`j+1`
prefix is at most one more than the longest border of the length-`j`
prefix. -/
theorem prefBorder_succ_le (P : List Char) (j b : Nat) (hj : 0 < j)
    (hb : PrefBorder P (j+1) b) : b ≤ mbF P j + 1 := by
  rcases Nat.eq_zero_or_pos b with h0 | hpos
  · omega
  · obtain ⟨b', rfl⟩ : ∃ b', b = b' + 1 := ⟨b - 1, by omega⟩
    have := (prefBorder_shrink P j b' hb).1
    have := mbF_max P j b' this
    omega

theorem get_append_left_nat (l : List Nat) (v k : Nat) (hk : k < l.length)
    (h2 : k < (l ++ [v]).length) : (l ++ [v]).get ⟨k, h2⟩ = l.get ⟨k, hk⟩ := by
  simp [List.get_eq_getElem, List.getElem_append_left hk]

theorem get_append_last (l : List Nat) (v : Nat)
    (h2 : l.length < (l ++ [v]).length) : (l ++ [v]).get ⟨l.length, h2⟩ = v := by
  simp [List.get_eq_getElem]

/-- Master correctness of the failure-array loop: if the table built so
far holds the longest-border values for all positions below `j`, the
cursor `i` is a border length of the length-`j` prefix, and every border
of the length-`(j+1)` prefix is at most `i + 1`, then every entry of the
finished table is the longest proper border length of the corresponding
pattern prefix. -/
theorem gfaLoop_entries (P : List Char) (j i : Nat) (failure : List Nat)
    (hfail : EntryLE failure) (hij : i < j) (hlen : failure.length = j)
    (hj : j ≤ P.length)
    (hent : ∀ k (hk2 : k < failure.length), failure.get ⟨k, hk2⟩ = mbF P (k+1))
    (hbord : PrefBorder P j i)
    (hbound : ∀ b, PrefBorder P (j+1) b → b ≤ i + 1) :
    ∀ k (hk2 : k < (gfaLoop P j i failure hfail hij hlen).length),
      (gfaLoop P j i failure hfail hij hlen).get ⟨k, hk2⟩ = mbF P (k+1) := by
  refine gfaLoop.induct P (motive := fun j i failure hfail hij hlen =>
      j ≤ P.length →
      (∀ k (hk2 : k < failure.length), failure.get ⟨k, hk2⟩ = mbF P (k+1)) →
      PrefBorder P j i →
      (∀ b, PrefBorder P (j+1) b → b ≤ i + 1) →
      ∀ k (hk2 : k < (gfaLoop P j i failure hfail hij hlen).length),
        (gfaLoop P j i failure hfail hij hlen).get ⟨k, hk2⟩ = mbF P (k+1))
    ?_ ?_ ?_ ?_ j i failure hfail hij hlen hj hent hbord hbound
  · -- match: record failure[j] = i+1, advance both cursors
    intro i failure hfail hij h heq ih hj hent hbord hbound
    rw [gfaLoop, dif_pos h, if_pos heq]
    have hq : P.get? i = P.get? failure.length := by
      rw [List.get?_eq_get (by omega), List.get?_eq_get h, heq]
    have hgrow : PrefBorder P (failure.length + 1) (i + 1) :=
      prefBorder_grow P failure.length i hbord hq
    have hvalue : mbF P (failure.length + 1) = i + 1 := by
      have h1 : i + 1 ≤ mbF P (failure.length + 1) :=
        mbF_max P (failure.length + 1) (i + 1) hgrow
      have h2 : mbF P (failure.length + 1) ≤ i + 1 :=
        hbound _ (mbF_isBorder P (failure.length + 1) (by omega))
      omega
    refine ih h ?_ hgrow ?_
    · intro k hk2
      simp only [List.length_append, List.length_singleton] at hk2
      rcases Nat.lt_or_ge k failure.length with hlt | hge
      · rw [get_append_left_nat failure (i+1) k hlt, hent k hlt]
      · have hk0 : k = failure.length := by omega
        subst hk0
        rw [get_append_last, hvalue]
    · intro b hb
      have := prefBorder_succ_le P (failure.length + 1) b (by omega) hb
      omega
  · -- mismatch with i > 0: fall back to failure[i-1]
    intro i failure hfail hpos hij h hne ih hj hent hbord hbound
    rw [gfaLoop, dif_pos h, if_neg hne, dif_pos hpos]
    have hival : failure.get ⟨i-1, by omega⟩ = mbF P i := by
      have := hent (i-1) (by omega)
      rw [this]
      congr 1
      omega
    have hmbi : PrefBorder P i (mbF P i) := mbF_isBorder P i hpos
    refine ih hj hent ?_ ?_
    · rw [hival]
      exact prefBorder_trans P failure.length i (mbF P i) hmbi hbord
    · intro b hb
      rw [hival]
      rcases Nat.eq_zero_or_pos b with rfl | hbpos
      · omega
      · obtain ⟨b', rfl⟩ : ∃ b', b = b' + 1 := ⟨b - 1, by omega⟩
        obtain ⟨hb', hsym⟩ := prefBorder_shrink P failure.length b' hb
        have hble : b' + 1 ≤ i + 1 := hbound _ hb
        rcases Nat.lt_or_ge b' i with hblt | hbge
        · have hchain : PrefBorder P i b' := prefBorder_chain P failure.length b' i hblt hb' hbord
          have := mbF_max P i b' hchain
          omega
        · have hbeq : b' = i := by omega
          subst hbeq
          exfalso
          apply hne
          rw [List.get?_eq_get (by omega : b' < P.length),
            List.get?_eq_get h] at hsym
          injection hsym
  · -- mismatch with i = 0: record failure[j] = 0, advance j
    intro i failure hfail hpos hij h hne ih hj hent hbord hbound
    rw [gfaLoop, dif_pos h, if_neg hne, dif_neg hpos]
    have hi0 : i = 0 := by omega
    subst hi0
    have hvalue : mbF P (failure.length + 1) = 0 := by
      by_contra hnz
      have hmb : PrefBorder P (failure.length + 1) (mbF P (failure.length + 1)) :=
        mbF_isBorder P (failure.length + 1) (by omega)
      have hle : mbF P (failure.length + 1) ≤ 1 := hbound _ hmb
      have h1 : mbF P (failure.length + 1) = 1 := by omega
      rw [h1] at hmb
      obtain ⟨-, hsym⟩ := prefBorder_shrink P failure.length 0 hmb
      apply hne
      rw [List.get?_eq_get (by omega : (0:Nat) < P.length),
        List.get?_eq_get h] at hsym
      injection hsym
    refine ih h ?_ (prefBorder_zero P (failure.length + 1) (by omega)) ?_
    · intro k hk2
      simp only [List.length_append, List.length_singleton] at hk2
      rcases Nat.lt_or_ge k failure.length with hlt | hge
      · rw [get_append_left_nat failure 0 k hlt, hent k hlt]
      · have hk0 : k = failure.length := by omega
        subst hk0
        rw [get_append_last, hvalue]
    · intro b hb
      have := prefBorder_succ_le P (failure.length + 1) b (by omega) hb
      omega
  · -- exit: j reached the pattern length
    intro i failure hfail hij h hj hent hbord hbound
    rw [gfaLoop, dif_neg h]
    exact hent

/-- Every entry of `get_failure_array` is the longest proper border length
of the corresponding pattern position's prefix. -/
theorem get_failure_array_entries (P : List Char) (h : P ≠ []) :
    ∀ k (hk2 : k < (get_failure_array P).length),
      (get_failure_array P).get ⟨k, hk2⟩ = mbF P (k+1) := by
  have hpos : 0 < P.length := List.length_pos.mpr h
  rw [get_failure_array]
  apply gfaLoop_entries P 1 0 [0] _ _ _ (by omega)
  · intro k hk2
    have hk0 : k = 0 := by simpa using hk2
    subst hk0
    show 0 = mbF P 1
    have := mbF_le P 1
    omega
  · exact prefBorder_zero P 1 (by omega)
  · intro b hb
    have h1 := hb.1
    omega

/-- Bridge between the index-wise border formulation and the
take/suffix formulation: for `k < m ≤ len P`, the length-`k` prefix of
`P` borders the length-`m` prefix exactly when it is a suffix of it. -/
theorem prefBorder_iff_suffix (P : List Char) (m k : Nat) (hm : m ≤ P.length)
    (hk : k < m) : PrefBorder P m k ↔ P.take k <:+ P.take m := by
  rw [List.suffix_iff_eq_drop]
  have hlk : (P.take k).length = k := by
    rw [List.length_take]
    omega
  have hlm : (P.take m).length = m := by
    rw [List.length_take]
    omega
  rw [hlk, hlm]
  constructor
  · rintro ⟨-, hb⟩
    apply List.ext_get?
    intro n
    rcases Nat.lt_or_ge n k with hn | hn
    · rw [List.get?_take hn, List.get?_drop]
      rw [List.get?_take (by omega : m - k + n < m)]
      exact hb n hn
    · rw [List.get?_eq_none.mpr (by rw [hlk]; omega)]
      rw [List.get?_eq_none.mpr (by rw [List.length_drop, hlm]; omega)]
  · intro heq
    refine ⟨hk, fun x hx => ?_⟩
    have := congrArg (fun l => l.get? x) heq
    simp only at this
    rw [List.get?_take hx, List.get?_drop, List.get?_take (by omega : m - k + x < m)] at this
    exact this

/-- C6: for a non-empty pattern the failure table has the pattern's
length, entry 0 is 0, every entry is at most its index, and entry `j` is
the length of the longest proper prefix of `P[0..=j]` that is also a
suffix of it. -/
theorem failure_table_spec (P : List Char) (h : P ≠ []) :
    (get_failure_array P).length = P.length ∧
    (get_failure_array P).get? 0 = some 0 ∧
    ∀ j (hj : j < (get_failure_array P).length),
      (get_failure_array P).get ⟨j, hj⟩ ≤ j ∧
      P.take ((get_failure_array P).get ⟨j, hj⟩) <:+ P.take (j+1) ∧
      ∀ k, k ≤ j → P.take k <:+ P.take (j+1) →
        k ≤ (get_failure_array P).get ⟨j, hj⟩ := by
  have hpos : 0 < P.length := List.length_pos.mpr h
  have hlen : (get_failure_array P).length = P.length := by
    rw [get_failure_array_length]
    omega
  refine ⟨hlen, ?_, ?_⟩
  · have h0 : mbF P 1 = 0 := by
      have := mbF_le P 1
      omega
    rw [List.get?_eq_get (by omega), get_failure_array_entries P h 0 (by omega), h0]
  · intro j hj
    have hjP : j < P.length := by omega
    rw [get_failure_array_entries P h j hj]
    have hle : mbF P (j+1) ≤ j := by
      have := mbF_le P (j+1)
      omega
    refine ⟨hle, ?_, ?_⟩
    · rcases Nat.eq_zero_or_pos (mbF P (j+1)) with h0 | hbpos
      · rw [h0]
        simp
      · exact (prefBorder_iff_suffix P (j+1) (mbF P (j+1)) (by omega) (by omega)).mp
          (mbF_isBorder P (j+1) (by omega))
    · intro k hk hsuf
      exact mbF_max P (j+1) k
        ((prefBorder_iff_suffix P (j+1) k (by omega) (by omega)).mpr hsuf)

/-- C6 witness at a concrete pattern. -/
theorem failure_table_spec_witness :
    (get_failure_array ['a','a','b']).length = (['a','a','b'] : List Char).length ∧
    (get_failure_array ['a','a','b']).get? 0 = some 0 ∧
    ∀ j (hj : j < (get_failure_array ['a','a','b']).length),
      (get_failure_array ['a','a','b']).get ⟨j, hj⟩ ≤ j ∧
      (['a','a','b'] : List Char).take ((get_failure_array ['a','a','b']).get ⟨j, hj⟩) <:+
        (['a','a','b'] : List Char).take (j+1) ∧
      ∀ k, k ≤ j → (['a','a','b'] : List Char).take k <:+ (['a','a','b'] : List Char).take (j+1) →
        k ≤ (get_failure_array ['a','a','b']).get ⟨j, hj⟩ :=
  failure_table_spec ['a','a','b'] (by decide)

/-- `P` occurs in `T` at offset `s`: the `len P` symbols of `T` starting
at `s` spell `P`. -/
def occursAt (P T : List Char) (s : Nat) : Prop :=
  s + P.length ≤ T.length ∧ ∀ x, x < P.length → P.get? x = T.get? (s + x)

instance (P T : List Char) (s : Nat) : Decidable (occursAt P T s) := by
  unfold occursAt
  exact instDecidableAnd

/-- Naive reference scan, from the spec's words: try every offset and
compare the pattern against the next `len P` symbols of the text. -/
def naiveContains (T P : List Char) : Bool :=
  (List.range (T.length + 1)).any fun s => decide ((T.drop s).take P.length = P)

theorem naiveContains_iff (T P : List Char) :
    naiveContains T P = true ↔ ∃ s, occursAt P T s := by
  unfold naiveContains
  rw [List.any_eq_true]
  constructor
  · rintro ⟨s, hmem, hs⟩
    rw [List.mem_range] at hmem
    rw [decide_eq_true_iff] at hs
    have hl := congrArg List.length hs
    simp only [List.length_take, List.length_drop] at hl
    refine ⟨s, by omega, fun x hx => ?_⟩
    have := congrArg (fun l => l.get? x) hs
    simp only at this
    rw [List.get?_take hx, List.get?_drop] at this
    rw [← this]
  · rintro ⟨s, hlen, hmatch⟩
    refine ⟨s, List.mem_range.mpr (by omega), decide_eq_true_iff.mpr ?_⟩
    apply List.ext_get?
    intro n
    rcases Nat.lt_or_ge n P.length with hn | hn
    · rw [List.get?_take hn, List.get?_drop]
      exact (hmatch n hn).symm
    · rw [List.get?_eq_none.mpr (by simp [List.length_take, List.length_drop]; omega)]
      rw [List.get?_eq_none.mpr hn]

/-- On loop exhaustion with the completeness invariant, no occurrence
exists at all. -/
theorem no_occ_of_exhausted (P T : List Char) (i j : Nat)
    (hji : j ≤ i) (hi2 : i ≤ T.length) (hiL : ¬ i < T.length) (hjP : j < P.length)
    (hno : ∀ s, s < i - j → ¬ occursAt P T s) : ¬ ∃ s, occursAt P T s := by
  rintro ⟨s, hocc⟩
  rcases Nat.lt_or_ge s (i - j) with hs | hs
  · exact hno s hs hocc
  · have h1 := hocc.1
    omega

theorem get?_idx (T : List Char) (a b : Nat) (hb : b < T.length) (hab : a = b) :
    T.get? a = some (T.get ⟨b, hb⟩) := by
  subst hab
  exact List.get?_eq_get hb

/-- Master correctness of the scan loop: from a state where the last `j`
text symbols before `i` match the first `j` pattern symbols and no
occurrence of the pattern starts before `i - j`, the loop returns, with
no error, true exactly when the pattern occurs somewhere in the text. -/
theorem kmpLoop_correct (P T : List Char) (failure : List Nat)
    (hfail : EntryLE failure) (hflen : P.length ≤ failure.length)
    (hent : ∀ k (hk : k < failure.length), failure.get ⟨k, hk⟩ = mbF P (k+1)) :
    ∀ n i j, 2 * (T.length - i) + j ≤ n →
      j ≤ i → i ≤ T.length → j < P.length →
      (∀ x, x < j → P.get? x = T.get? (i - j + x)) →
      (∀ s, s < i - j → ¬ occursAt P T s) →
      ∃ b, kmpLoop P T failure hfail i j = .ok b ∧
        (b = true ↔ ∃ s, occursAt P T s) := by
  intro n
  induction n with
  | zero =>
    intro i j hn hji hi2 hjP hmatch hno
    have hiL : ¬ i < T.length := by omega
    exact ⟨false, kmpLoop_exhausted P T failure hfail i j hiL, by
      simp only [Bool.false_eq_true, false_iff]
      exact no_occ_of_exhausted P T i j hji hi2 hiL hjP hno⟩
  | succ n ih =>
    intro i j hn hji hi2 hjP hmatch hno
    by_cases hi : i < T.length
    · have hp : P.get? j = some (P.get ⟨j, hjP⟩) := List.get?_eq_get hjP
      set pc := P.get ⟨j, hjP⟩ with hpc
      by_cases he : pc = T.get ⟨i, hi⟩
      · by_cases hlast : j = P.length - 1
        · refine ⟨true, kmpLoop_match_last P T failure hfail i j hi pc hp he hlast, ?_⟩
          simp only [true_iff]
          refine ⟨i - j, ⟨by omega, fun x hx => ?_⟩⟩
          rcases Nat.lt_or_ge x j with hxj | hxj
          · rw [hmatch x hxj]
          · have hxe : x = j := by omega
            rw [hxe, hp, he, get?_idx T (i - j + j) i hi (by omega)]
        · rw [kmpLoop_match_step P T failure hfail i j hi pc hp he hlast]
          apply ih (i+1) (j+1) (by omega) (by omega) (by omega) (by omega)
          · intro x hx
            rcases Nat.lt_or_ge x j with hxj | hxj
            · rw [hmatch x hxj]
              congr 1
              omega
            · have hxe : x = j := by omega
              rw [hxe, hp, he, get?_idx T (i + 1 - (j + 1) + j) i hi (by omega)]
          · intro s hs
            exact hno s (by omega)
      · by_cases hj0 : 0 < j
        · have hj1 : j - 1 < failure.length := by omega
          have hf : failure.get? (j-1) = some (failure.get ⟨j-1, hj1⟩) :=
            List.get?_eq_get hj1
          have hfval : failure.get ⟨j-1, hj1⟩ = mbF P j := by
            rw [hent (j-1) hj1]
            congr 1
            omega
          set f := failure.get ⟨j-1, hj1⟩ with hfdef
          have hfb : PrefBorder P j f := by
            rw [hfval]
            exact mbF_isBorder P j hj0
          have hfle : f < j := hfb.1
          rw [kmpLoop_fallback P T failure hfail i j hi pc hp he hj0 f hf]
          apply ih i f (by omega) (by omega) hi2 (by omega)
          · intro x hx
            have h1 := hfb.2 x hx
            have h2 := hmatch (j - f + x) (by omega)
            rw [h1, h2]
            congr 1
            omega
          · intro s hs
            rcases Nat.lt_or_ge s (i - j) with hsj | hsj
            · exact hno s hsj
            · intro hocc
              -- the match length k = i - s lies strictly between f and j
              have hk1 : f < i - s := by omega
              rcases Nat.lt_or_ge (i - s) j with hkj | hkj
              · -- a border of the length-j prefix longer than f: impossible
                have hb : PrefBorder P j (i - s) := by
                  refine ⟨hkj, fun x hx => ?_⟩
                  have h1 := hocc.2 x (by omega)
                  have h2 := hmatch (j - (i - s) + x) (by omega)
                  rw [h1, h2]
                  congr 1
                  omega
                have := mbF_max P j (i - s) hb
                omega
              · -- s = i - j: the pattern symbol at j would match text at i
                have hse : s = i - j := by omega
                have h1 := hocc.2 j hjP
                rw [hse, hp, get?_idx T (i - j + j) i hi (by omega)] at h1
                injection h1 with h1'
                exact he h1'
        · rw [kmpLoop_advance_zero P T failure hfail i j hi pc hp he hj0]
          have hj00 : j = 0 := by omega
          subst hj00
          apply ih (i+1) 0 (by omega) (by omega) (by omega) hjP
          · intro x hx
            exact absurd hx (Nat.not_lt_zero x)
          · intro s hs
            rcases Nat.lt_or_ge s i with hsi | hsi
            · exact hno s (by omega)
            · intro hocc
              have hse : s = i := by omega
              have h1 := hocc.2 0 (by omega)
              rw [hse, hp, get?_idx T (i + 0) i hi (by omega)] at h1
              injection h1 with h1'
              exact he h1'
    · exact ⟨false, kmpLoop_exhausted P T failure hfail i j hi, by
        simp only [Bool.false_eq_true, false_iff]
        exact no_occ_of_exhausted P T i j hji hi2 hi hjP hno⟩

/-- C1: for every text and non-empty pattern, the matcher returns true
exactly when the pattern occurs as a contiguous substring of the text at
some offset, and agrees with the naive reference scan. -/
theorem kmp_matches_substring (P T : List Char) (h : P ≠ []) :
    (kmp P T = Except.ok true ↔ ∃ s, occursAt P T s) ∧
    kmp P T = Except.ok (naiveContains T P) := by
  have hpos : 0 < P.length := List.length_pos.mpr h
  have hflen : P.length ≤ (get_failure_array P).length := by
    rw [get_failure_array_length]
    exact le_max_left _ _
  obtain ⟨b, hok, hiff⟩ :=
    kmpLoop_correct P T (get_failure_array P) (get_failure_array_entryLE P) hflen
      (get_failure_array_entries P h) (2 * T.length) 0 0 (by omega) (by omega)
      (by omega) hpos
      (fun x hx => absurd hx (Nat.not_lt_zero x))
      (fun s hs => absurd hs (by omega))
  have hkmp : kmp P T = Except.ok b := hok
  constructor
  · rw [hkmp]
    constructor
    · intro hb
      injection hb with hb'
      exact hiff.mp hb'
    · intro hocc
      rw [hiff.mpr hocc]
  · rw [hkmp]
    congr 1
    rcases hb : b with - | -
    · rcases hnaive : naiveContains T P with - | -
      · rfl
      · rw [hb] at hiff
        exact hiff.mpr ((naiveContains_iff T P).mp hnaive)
    · rw [hb] at hiff
      have := (naiveContains_iff T P).mpr (hiff.mp rfl)
      exact this.symm

/-- C1 witness at a concrete text and pattern. -/
theorem kmp_matches_substring_witness :
    (kmp ['a','b'] ['c','a','b'] = Except.ok true ↔
      ∃ s, occursAt ['a','b'] ['c','a','b'] s) ∧
    kmp ['a','b'] ['c','a','b'] = Except.ok (naiveContains ['c','a','b'] ['a','b']) :=
  kmp_matches_substring ['a','b'] ['c','a','b'] (by decide)

/-- C5: for a non-empty pattern longer than the text the matcher returns
false without error; in particular it returns false on the empty text. -/
theorem kmp_pattern_longer_false (P : List Char) (h : P ≠ []) :
    (∀ T : List Char, T.length < P.length → kmp P T = Except.ok false) ∧
    kmp P [] = Except.ok false := by
  have hmain : ∀ T : List Char, T.length < P.length → kmp P T = Except.ok false := by
    intro T hlen
    have hpos : 0 < P.length := List.length_pos.mpr h
    have hflen : P.length ≤ (get_failure_array P).length := by
      rw [get_failure_array_length]
      exact le_max_left _ _
    obtain ⟨b, hok, hiff⟩ :=
      kmpLoop_correct P T (get_failure_array P) (get_failure_array_entryLE P) hflen
        (get_failure_array_entries P h) (2 * T.length) 0 0 (by omega) (by omega)
        (by omega) hpos
        (fun x hx => absurd hx (Nat.not_lt_zero x))
        (fun s hs => absurd hs (by omega))
    have hbf : b = false := by
      rcases hb : b with - | -
      · rfl
      · rw [hb] at hiff
        obtain ⟨s, hocc⟩ := hiff.mp rfl
        have := hocc.1
        omega
    rw [hbf] at hok
    exact hok
  exact ⟨hmain, hmain [] (by simpa using List.length_pos.mpr h)⟩

/-- C5 witness at a concrete pattern and shorter text. -/
theorem kmp_pattern_longer_false_witness :
    (∀ T : List Char, T.length < (['a','b'] : List Char).length →
      kmp ['a','b'] T = Except.ok false) ∧
    kmp ['a','b'] [] = Except.ok false :=
  kmp_pattern_longer_false ['a','b'] (by decide)
